import Mathlib

/-!
Verification development for the promql-engine core: the passthrough
logical-plan optimizer (`logicalplan` package), the range-query executor
(`engine` package) and the histogram bucket-quantile primitive
(`function` package).

Go float64 values are modelled by the type `F` below: NaN, the two
infinities, and finite values represented exactly as rationals.  Every
concrete computation exercised in this file stays inside the subset of
float64 arithmetic that is exact (small integers, halves, quarters),
where the rational model coincides with IEEE-754 double semantics.
Go machine integers (`int64` millisecond timestamps, slice indices)
are modelled as `Int` / `Nat`; the values involved never approach the
64-bit overflow boundary.  A Go runtime panic (out-of-range slice
index) is modelled by `Option.none`.
-/

set_option maxRecDepth 2000

/-- Rational arithmetic by explicit numerator/denominator formulas
(normalized through `mkRat`): the library's `Rat.add` and friends are
irreducible, which blocks kernel evaluation; these compute the same
rational values. -/
def qadd (a b : ℚ) : ℚ := mkRat (a.num * b.den + b.num * a.den) (a.den * b.den)

/-- rational multiplication (see `qadd`). -/
def qmul (a b : ℚ) : ℚ := mkRat (a.num * b.num) (a.den * b.den)

/-- rational negation (see `qadd`). -/
def qneg (a : ℚ) : ℚ := mkRat (-a.num) a.den

/-- rational subtraction (see `qadd`). -/
def qsub (a b : ℚ) : ℚ := qadd a (qneg b)

/-- rational division (see `qadd`); callers never divide by zero. -/
def qdiv (a b : ℚ) : ℚ :=
  if b.num < 0 then mkRat (-(a.num * (b.den : Int))) (a.den * b.num.natAbs)
  else mkRat (a.num * (b.den : Int)) (a.den * b.num.natAbs)

/-- rational absolute value (see `qadd`). -/
def qabs (a : ℚ) : ℚ := mkRat a.num.natAbs a.den

/-- Model of a Go `float64`: NaN, an infinity (`true` = positive), or a
finite value represented exactly as a rational. -/
inductive F where
  | nan : F
  | inf : Bool → F
  | fin : ℚ → F
deriving DecidableEq

namespace F

/-- `math.IsNaN`. -/
def isNaN : F → Bool
  | nan => true
  | _ => false

/-- `math.IsInf(x, +1)`. -/
def isPosInf : F → Bool
  | inf true => true
  | _ => false

/-- whether the value is finite. -/
def isFin : F → Bool
  | fin _ => true
  | _ => false

/-- IEEE `==` on float64: NaN compares unequal to everything. -/
def beq : F → F → Bool
  | nan, _ => false
  | _, nan => false
  | inf s, inf t => s == t
  | fin a, fin b => a == b
  | inf _, fin _ => false
  | fin _, inf _ => false

/-- IEEE `<` on float64: comparisons involving NaN are false. -/
def lt : F → F → Bool
  | nan, _ => false
  | _, nan => false
  | inf true, _ => false
  | inf false, inf false => false
  | inf false, _ => true
  | fin _, inf true => true
  | fin _, inf false => false
  | fin a, fin b => decide (a < b)

/-- IEEE `<=` on float64. -/
def le (a b : F) : Bool := lt a b || beq a b

/-- IEEE negation. -/
def neg : F → F
  | nan => nan
  | inf s => inf (!s)
  | fin a => fin (qneg a)

/-- IEEE addition; finite sums are exact in the rational model. -/
def add : F → F → F
  | nan, _ => nan
  | _, nan => nan
  | inf s, inf t => if s == t then inf s else nan
  | inf s, fin _ => inf s
  | fin _, inf t => inf t
  | fin a, fin b => fin (qadd a b)

/-- IEEE subtraction. -/
def sub (a b : F) : F := add a (neg b)

/-- IEEE multiplication (the model has no negative zero). -/
def mul : F → F → F
  | nan, _ => nan
  | _, nan => nan
  | inf s, inf t => inf (s == t)
  | inf s, fin b => if b == 0 then nan else if 0 < b then inf s else inf (!s)
  | fin a, inf t => if a == 0 then nan else if 0 < a then inf t else inf (!t)
  | fin a, fin b => fin (qmul a b)

/-- IEEE division (the model has no negative zero, so x/0 takes the sign
of x alone). -/
def div : F → F → F
  | nan, _ => nan
  | _, nan => nan
  | inf _, inf _ => nan
  | inf s, fin b => if 0 ≤ b then inf s else inf (!s)
  | fin _, inf _ => fin 0
  | fin a, fin b =>
      if b == 0 then (if a == 0 then nan else if 0 < a then inf true else inf false)
      else fin (qdiv a b)

/-- `math.Abs`. -/
def abs : F → F
  | nan => nan
  | inf _ => inf true
  | fin a => fin (qabs a)

/-- `math.Min`: NaN if either argument is NaN. -/
def min (a b : F) : F :=
  if a.isNaN || b.isNaN then nan
  else if lt a b then a else b

end F

/-!  ## The logicalplan package: PassthroughOptimizer  -/

/-- A Prometheus label set (`labels.Labels`): name/value pairs. -/
abbrev Labels := List (String × String)

/-- `labels.Labels.Get`: the value of the label with the given name, or
the empty string when absent. -/
def Labels.get (ls : Labels) (name : String) : String :=
  match ls.find? (fun p => p.1 == name) with
  | some p => p.2
  | none => ""

/-- `labels.Labels.Has`: whether a label with the given name is present. -/
def Labels.has (ls : Labels) (name : String) : Bool :=
  (ls.find? (fun p => p.1 == name)).isSome

/-- A Prometheus label matcher (`labels.Matcher`): a label name plus the
predicate `Matches` on label values (equality, regex, ... — kept
abstract as a Boolean function). -/
structure Matcher where
  name : String
  Matches : String → Bool

/-- An equality matcher `name="value"`, the shape used by the spec's
examples. -/
def Matcher.equal (name value : String) : Matcher :=
  ⟨name, fun v => v == value⟩

/-- `labelSetsMatch` from the logicalplan package: false iff every
label set fails the matchers (OR across label sets); an empty label-set
list trivially matches.  A matcher fails a set only when the set has
the matcher's label name and the predicate rejects the stored value. -/
def labelSetsMatch (matchers : List Matcher) (lset : List Labels) : Bool :=
  if lset.length == 0 then true
  else
    lset.any fun ls =>
      !(matchers.any fun m => ls.has m.name && !(m.Matches (ls.get m.name)))

/-- A remote backend descriptor (`api.RemoteEngine`): millisecond time
coverage plus the label sets it can answer for. -/
structure RemoteEngine where
  MinT : Int
  MaxT : Int
  LabelSets : List Labels
deriving DecidableEq

/-- The registry collaborator (`api.RemoteEndpoints`): exposes the
ordered list of configured backends. -/
structure RemoteEndpoints where
  Engines : List RemoteEngine

/-- `logicalplan.PassthroughOptimizer`. -/
structure PassthroughOptimizer where
  Endpoints : RemoteEndpoints

/-- Query options (`query.Options`); `startMs`/`endMs` model
`opts.Start.UnixMilli()` and `opts.End.UnixMilli()`. -/
structure QOptions where
  startMs : Int
  endMs : Int
deriving DecidableEq

/-- Modelled from the spec: the logical plan node type, "polymorphic
over variants including at least: vector-selector (series matcher),
aggregation, binary-op, remote-execution (delegation marker)".  The
`Node` interface and its variants live outside the provided sources;
a remote-execution node carries the target backend, the wrapped query
and the inclusive query range. -/
inductive Node where
  | vectorSelector (labelMatchers : List Matcher)
  | aggregation (op : String) (expr : Node)
  | binaryOp (lhs rhs : Node)
  | remoteExecution (engine : RemoteEngine) (query : Node)
      (queryRangeStart queryRangeEnd : Int)

/-- Modelled from the spec: `Node.Clone` "produces a deep, independent
copy"; in the immutable embedding a deep copy rebuilds the tree. -/
def Node.clone : Node → Node
  | .vectorSelector ms => .vectorSelector ms
  | .aggregation op e => .aggregation op e.clone
  | .binaryOp l r => .binaryOp l.clone r.clone
  | .remoteExecution en q s t => .remoteExecution en q.clone s t

/-- Modelled from the spec: `TraverseBottomUp` "visits all children
before a parent"; this lists the visited nodes in visit order. -/
def Node.nodesBottomUp : Node → List Node
  | .vectorSelector ms => [.vectorSelector ms]
  | .aggregation op e => e.nodesBottomUp ++ [.aggregation op e]
  | .binaryOp l r => l.nodesBottomUp ++ r.nodesBottomUp ++ [.binaryOp l r]
  | .remoteExecution en q s t => q.nodesBottomUp ++ [.remoteExecution en q s t]

/-- The matcher lists of the vector-selector nodes, in bottom-up visit
order. -/
def Node.selectorMatchers (n : Node) : List (List Matcher) :=
  n.nodesBottomUp.filterMap fun m =>
    match m with
    | .vectorSelector ms => some ms
    | _ => none

/-- `matchingEngineTime`: the backend's [MinT,MaxT] intersects the
query's [start,end], tested exactly as in the source. -/
def matchingEngineTime (e : RemoteEngine) (opts : QOptions) : Bool :=
  !(decide (opts.startMs > e.MaxT) || decide (opts.endMs < e.MinT))

/-- The candidate list built by `Optimize`'s bottom-up traversal: for
every vector-selector node, every engine whose label sets satisfy the
selector's matchers is appended to one shared list. -/
def matchingLabelsEngines (engines : List RemoteEngine) (plan : Node) : List RemoteEngine :=
  plan.nodesBottomUp.foldl
    (fun acc n =>
      match n with
      | Node.vectorSelector ms =>
          acc ++ engines.filter (fun e => labelSetsMatch ms e.LabelSets)
      | _ => acc)
    []

/-- `PassthroughOptimizer.Optimize`.  The second component models the
returned `annotations.Annotations`, which is nil on every path. -/
def PassthroughOptimizer.Optimize (m : PassthroughOptimizer) (plan : Node)
    (opts : QOptions) : Node × List String :=
  match m.Endpoints.Engines with
  | [e] =>
      if matchingEngineTime e opts then
        (Node.remoteExecution e plan.clone opts.startMs opts.endMs, [])
      else (plan, [])
  | [] => (plan, [])
  | e1 :: e2 :: rest =>
      match matchingLabelsEngines (e1 :: e2 :: rest) plan with
      | [e] =>
          if matchingEngineTime e opts then
            (Node.remoteExecution e plan.clone opts.startMs opts.endMs, [])
          else (plan, [])
      | _ => (plan, [])

/-- The per-selector candidate union the spec describes: for each
selector's matcher list in turn, the engines whose label sets match,
appended without deduplication or cross-selector intersection. -/
def selectorCandidates (engines : List RemoteEngine) : List (List Matcher) → List RemoteEngine
  | [] => []
  | ms :: rest =>
      engines.filter (fun e => labelSetsMatch ms e.LabelSets) ++ selectorCandidates engines rest

/-!  ## The function package: bucketQuantile  -/

/-- `function.le`: one classic-histogram bucket, an upper bound with
its cumulative count. -/
structure le where
  upperBound : F
  count : F
deriving DecidableEq

/-- `smallDeltaTolerance = 1e-12` (the rational model reads the decimal
literal exactly). -/
def smallDeltaTolerance : F := F.fin (mkRat 1 1000000000000)

/-- `minNormal` from prometheus `util/almost`: the smallest positive
normal float64, `2^-1022`. -/
def minNormal : F := F.fin (mkRat 1 44942328371557897693232629769725618340449424473557664318357520289433168951375240783177119330601884005280028469967848339414697442203604155623211857659868531094441973356216371319075554900311523529863270738021251442209537670585615720368478277635206809290837627671146574559986811484619929076208839082406056034304)

/-- `math.MaxFloat64 = (2^53 - 1) * 2^971`. -/
def maxFloat64 : F := F.fin (mkRat 179769313486231570814527423731704356798070567525844996598917476803157260780028538760589558632766878171540458953514382464234321326889464182768467546703537516986049910576551282076245490090389328944075868508455133942304583236903222948165808559332123348274797826204144723168738177180919299881250404026184124858368 1)

/-- `almost.Equal` from prometheus `util/almost` (external collaborator
of the function package): relative-tolerance float comparison. -/
def almostEqual (a b epsilon : F) : Bool :=
  if a.isNaN && b.isNaN then true
  else if F.beq a b then true
  else
    let absSum := F.add a.abs b.abs
    let diff := (F.sub a b).abs
    if F.beq a (F.fin 0) || F.beq b (F.fin 0) || F.lt absSum minNormal then
      F.lt diff (F.mul epsilon minNormal)
    else
      F.lt (F.div diff (F.min absSum maxFloat64)) epsilon

/-- insertion step for `sortBuckets`. -/
def insertBucket (b : le) : List le → List le
  | [] => [b]
  | c :: t => if F.lt c.upperBound b.upperBound then c :: insertBucket b t else b :: c :: t

/-- `sort.Sort(buckets)` with the source's `Less` (ascending
`upperBound`), modelled as an insertion sort; it agrees with the Go
(unstable) sort except for the order of equal-bound buckets, which the
subsequent coalescing merges anyway. -/
def sortBuckets (bs : List le) : List le := bs.foldr insertBucket []

/-- the merge loop of `coalesceBuckets`, carrying the pending bucket. -/
def coalesceGo (last : le) : List le → List le
  | [] => [last]
  | b :: t =>
      if F.beq b.upperBound last.upperBound then
        coalesceGo ⟨last.upperBound, F.add last.count b.count⟩ t
      else last :: coalesceGo b t

/-- `coalesceBuckets`: merge equal-upper-bound buckets by summing
counts.  Go panics on an empty slice (it reads `buckets[0]`); the
caller only reaches it with a non-empty slice. -/
def coalesceBuckets : List le → List le
  | [] => []
  | b :: t => coalesceGo b t

/-- the scan loop of `ensureMonotonicAndIgnoreSmallDeltas`, carrying
`prev`; returns the rewritten tail plus the
(forcedMonotonic, fixedPrecision) flags. -/
def ensureMonoGo (tolerance prev : F) : List le → List le × Bool × Bool
  | [] => ([], false, false)
  | b :: rest =>
      if F.beq b.count prev then
        let r := ensureMonoGo tolerance prev rest
        (b :: r.1, r.2.1, r.2.2)
      else if almostEqual prev b.count tolerance then
        let r := ensureMonoGo tolerance prev rest
        (⟨b.upperBound, prev⟩ :: r.1, r.2.1, true)
      else if F.lt b.count prev then
        let r := ensureMonoGo tolerance prev rest
        (⟨b.upperBound, prev⟩ :: r.1, true, r.2.2)
      else
        let r := ensureMonoGo tolerance b.count rest
        (b :: r.1, r.2.1, r.2.2)

/-- `ensureMonotonicAndIgnoreSmallDeltas`.  The Go function mutates the
bucket slice in place and returns only the two flags; the model also
returns the rewritten buckets.  Go would panic on an empty slice
(`buckets[0]`); the caller only reaches it with a non-empty slice. -/
def ensureMonotonicAndIgnoreSmallDeltas (bs : List le) (tolerance : F) :
    List le × Bool × Bool :=
  match bs with
  | [] => ([], false, false)
  | b :: rest =>
      let r := ensureMonoGo tolerance b.count rest
      (b :: r.1, r.2.1, r.2.2)

/-- whether a list of float values is non-decreasing under IEEE `<=`. -/
def monoLe : List F → Bool
  | [] => true
  | [_] => true
  | a :: b :: t => F.le a b && monoLe (b :: t)

/-- the loop of Go `sort.Search`, with explicit fuel (the loop runs at
most `j - i` times, so fuel `n ≥ j - i` never runs out). -/
def searchLoop (f : Nat → Bool) : Nat → Nat → Nat → Nat
  | 0, i, _ => i
  | fuel + 1, i, j =>
      if i < j then
        let h := (i + j) / 2
        if f h then searchLoop f fuel i h else searchLoop f fuel (h + 1) j
      else i

/-- `sort.Search(n, f)`: the smallest index in `[0, n)` at which `f`
holds (assuming `f` monotone), or `n`. -/
def sortSearch (n : Nat) (f : Nat → Bool) : Nat := searchLoop f n 0 n

/-- out-of-range default for modelling Go slice reads that are only
performed at in-range indices. -/
def defaultBucket : le := ⟨F.nan, F.nan⟩

/-- the ranking-and-interpolation tail of `bucketQuantile`, operating
on the repaired buckets; the two degenerate returns discard the repair
flags exactly as the source does. -/
def bucketQuantileValue (q : F) (repaired : List le)
    (forcedMonotonic fixedPrecision : Bool) : Option (F × Bool × Bool) :=
  if repaired.length < 2 then some (F.nan, false, false)
  else
    let observations := (repaired.getLastD defaultBucket).count
    if F.beq observations (F.fin 0) then some (F.nan, false, false)
    else
      let rank := F.mul q observations
      let b := sortSearch (repaired.length - 1)
          (fun i => F.le rank ((repaired.getD i defaultBucket).count))
      if b = repaired.length - 1 then
        some ((repaired.getD (repaired.length - 2) defaultBucket).upperBound,
          forcedMonotonic, fixedPrecision)
      else if b == 0 && F.le ((repaired.getD 0 defaultBucket).upperBound) (F.fin 0) then
        some ((repaired.getD 0 defaultBucket).upperBound, forcedMonotonic, fixedPrecision)
      else
        let bucketEnd := (repaired.getD b defaultBucket).upperBound
        let count0 := (repaired.getD b defaultBucket).count
        let prevCount := (repaired.getD (b - 1) defaultBucket).count
        let bucketStart := if 0 < b then (repaired.getD (b - 1) defaultBucket).upperBound
                           else F.fin 0
        let count1 := if 0 < b then F.sub count0 prevCount else count0
        let rank1 := if 0 < b then F.sub rank prevCount else rank
        some (F.add bucketStart (F.mul (F.sub bucketEnd bucketStart) (F.div rank1 count1)),
          forcedMonotonic, fixedPrecision)

/-- `bucketQuantile` after the out-of-domain checks, on the sorted
buckets: top-bound check, coalescing, monotonicity repair, ranking.
The second component is the caller-visible slice: the repaired prefix
followed by the pre-compaction values the in-place compaction left
beyond it. -/
def bucketQuantileGo (q : F) (sorted : List le) : Option (F × Bool × Bool) × List le :=
  if sorted.length = 0 then (none, sorted)
  else
    if !(sorted.getLastD defaultBucket).upperBound.isPosInf then
      (some (F.nan, false, false), sorted)
    else
      let merged := coalesceBuckets sorted
      let rep := ensureMonotonicAndIgnoreSmallDeltas merged smallDeltaTolerance
      let repaired := rep.1
      let finalArr := repaired ++ sorted.drop repaired.length
      (bucketQuantileValue q repaired rep.2.1 rep.2.2, finalArr)

/-- `bucketQuantile`, with the caller-visible final state of the bucket
slice as second component.  The Go function sorts the slice in place,
compacts it during coalescing (the caller's full-length slice keeps the
pre-compaction values past the compacted prefix) and clamps counts
during monotonicity repair; the first component is the returned
`(value, forcedMonotonic, fixedPrecision)` triple, `none` modelling the
runtime panic on an empty slice (`buckets[len(buckets)-1]` with
negative index). -/
def bucketQuantileState (q : F) (bs : List le) : Option (F × Bool × Bool) × List le :=
  if q.isNaN then (some (F.nan, false, false), bs)
  else if F.lt q (F.fin 0) then (some (F.inf false, false, false), bs)
  else if F.lt (F.fin 1) q then (some (F.inf true, false, false), bs)
  else bucketQuantileGo q (sortBuckets bs)

/-- the `(value, forcedMonotonic, fixedPrecision)` return value of
`bucketQuantile`. -/
def bucketQuantile (q : F) (bs : List le) : Option (F × Bool × Bool) :=
  (bucketQuantileState q bs).1

/-!  ## The engine package: rangeQuery.Exec  -/

/-- `model.StepVector`'s samples: a series id, its labels and a value. -/
structure Sample where
  ID : Nat
  Metric : Labels
  V : F

/-- `model.StepVector`: one evaluation timestamp with its samples. -/
structure StepVector where
  T : Int
  Samples : List Sample

/-- `promql.Point`. -/
structure PPoint where
  T : Int
  V : F
deriving DecidableEq

/-- `promql.Series`. -/
structure PSeries where
  Metric : Labels
  Points : List PPoint
deriving DecidableEq

/-- `promql.Result`: the value matrix and the error field. -/
structure PResult where
  Value : List PSeries
  Err : Option String
deriving DecidableEq

/-- `newErrResult`: a result carrying only the error (nil value). -/
def newErrResult (err : String) : PResult := ⟨[], some err⟩

/-- one sample merged into the accumulator: Go reads
`seriesMap[sample.ID]`, which panics (`none`) when the id is not below
the slice length. -/
def accumSample (sm : List (Option PSeries)) (t : Int) (s : Sample) :
    Option (List (Option PSeries)) :=
  if s.ID < sm.length then
    let cur : PSeries := match sm.getD s.ID none with
      | none => { Metric := s.Metric, Points := [] }
      | some ser => ser
    some (sm.set s.ID (some { cur with Points := cur.Points ++ [⟨t, s.V⟩] }))
  else none

/-- the `for _, sample := range vector.Samples` loop. -/
def accumSamples (sm : List (Option PSeries)) (t : Int) :
    List Sample → Option (List (Option PSeries))
  | [] => some sm
  | s :: rest =>
      match accumSample sm t s with
      | none => none
      | some m => accumSamples m t rest

/-- all samples of one step vector merged into the accumulator. -/
def accumVector (sm : List (Option PSeries)) (v : StepVector) :
    Option (List (Option PSeries)) :=
  accumSamples sm v.T v.Samples

/-- the `for _, vector := range r` loop: one `Next` batch merged into
the accumulator. -/
def accumBatch (sm : List (Option PSeries)) : List StepVector → Option (List (Option PSeries))
  | [] => some sm
  | v :: rest =>
      match accumVector sm v with
      | none => none
      | some m => accumBatch m rest

/-- a sequence of successful `Next` batches merged in order. -/
def accumBatchList (sm : List (Option PSeries)) :
    List (List StepVector) → Option (List (Option PSeries))
  | [] => some sm
  | r :: t =>
      match accumBatch sm r with
      | none => none
      | some m => accumBatchList m t

/-- `labels.Compare`: lexicographic comparison of label name/value
sequences. -/
def labelsCompare : Labels → Labels → Ordering
  | [], [] => Ordering.eq
  | [], _ :: _ => Ordering.lt
  | _ :: _, [] => Ordering.gt
  | (n1, v1) :: t1, (n2, v2) :: t2 =>
      match compare n1 n2 with
      | Ordering.eq =>
          match compare v1 v2 with
          | Ordering.eq => labelsCompare t1 t2
          | o => o
      | o => o

/-- `promql.Matrix.Less`: order series by their label sets. -/
def seriesLess (a b : PSeries) : Bool := labelsCompare a.Metric b.Metric == Ordering.lt

/-- insertion step for `sortMatrix`. -/
def insertSeries (s : PSeries) : List PSeries → List PSeries
  | [] => [s]
  | c :: t => if seriesLess c s then c :: insertSeries s t else s :: c :: t

/-- `sort.Sort(result)` on the matrix, modelled as insertion sort. -/
def sortMatrix (m : List PSeries) : List PSeries := m.foldr insertSeries []

/-- the non-nil accumulator entries, in series-id order. -/
def materialize (sm : List (Option PSeries)) : List PSeries := sm.filterMap id

/-- the `for { ... q.plan.Next(ctx) ... }` loop of `rangeQuery.Exec`:
the root operator is modelled by the finite stream of its successive
`Next` results (`Except.error` = an error return, list end = the `nil`
terminal return).  `none` models a runtime panic while accumulating. -/
def execLoop : List (Except String (List StepVector)) → List (Option PSeries) → Option PResult
  | [], sm => some ⟨sortMatrix (materialize sm), none⟩
  | Except.error e :: _, _ => some (newErrResult e)
  | Except.ok r :: rest, sm =>
      match accumBatch sm r with
      | none => none
      | some sm2 => execLoop rest sm2

/-- `rangeQuery.Exec`: the accumulator is allocated as
`make([]*promql.Series, 3000)`. -/
def rangeQueryExec (stream : List (Except String (List StepVector))) : Option PResult :=
  execLoop stream (List.replicate 3000 none)

/-!  ## Theorems  -/

theorem Node.clone_eq (n : Node) : n.clone = n := by
  induction n <;> simp [Node.clone, *]

theorem matchingLabelsEngines_go (engines : List RemoteEngine) (l : List Node)
    (acc : List RemoteEngine) :
    l.foldl (fun acc n => match n with
      | Node.vectorSelector ms => acc ++ engines.filter (fun e => labelSetsMatch ms e.LabelSets)
      | _ => acc) acc
    = acc ++ selectorCandidates engines (l.filterMap fun m => match m with
        | Node.vectorSelector ms => some ms
        | _ => none) := by
  induction l generalizing acc with
  | nil => simp [selectorCandidates]
  | cons n t ih =>
    cases n with
    | vectorSelector ms =>
        simp only [List.foldl_cons, List.filterMap_cons]
        rw [ih]
        simp [selectorCandidates, List.append_assoc]
    | aggregation op e =>
        simp only [List.foldl_cons, List.filterMap_cons]
        exact ih acc
    | binaryOp lhs rhs =>
        simp only [List.foldl_cons, List.filterMap_cons]
        exact ih acc
    | remoteExecution en qq s t2 =>
        simp only [List.foldl_cons, List.filterMap_cons]
        exact ih acc

theorem matchingLabelsEngines_eq (engines : List RemoteEngine) (plan : Node) :
    matchingLabelsEngines engines plan = selectorCandidates engines plan.selectorMatchers := by
  unfold matchingLabelsEngines Node.selectorMatchers
  simpa using matchingLabelsEngines_go engines plan.nodesBottomUp []

/-- C1: with at most one configured backend, `Optimize` is a three-way
case split: zero backends → the input plan unchanged; one backend whose
[MinT,MaxT] misses [start,end] (tested as not(startMs > MaxT or
endMs < MinT)) → the input plan unchanged; one backend whose range
intersects → a RemoteExecution node with that engine, a clone of the
input plan and the query's start/end. -/
theorem passthrough_at_most_one_backend (m : PassthroughOptimizer) (plan : Node)
    (opts : QOptions) :
    (m.Endpoints.Engines = [] → m.Optimize plan opts = (plan, [])) ∧
    (∀ e, m.Endpoints.Engines = [e] → matchingEngineTime e opts = false →
      m.Optimize plan opts = (plan, [])) ∧
    (∀ e, m.Endpoints.Engines = [e] → matchingEngineTime e opts = true →
      m.Optimize plan opts =
        (Node.remoteExecution e plan.clone opts.startMs opts.endMs, []) ∧
      plan.clone = plan) := by
  refine ⟨fun h => ?_, fun e h ht => ?_, fun e h ht => ⟨?_, Node.clone_eq plan⟩⟩
  · simp [PassthroughOptimizer.Optimize, h]
  · simp [PassthroughOptimizer.Optimize, h, ht]
  · simp [PassthroughOptimizer.Optimize, h, ht]

theorem passthrough_at_most_one_backend_witness :
    PassthroughOptimizer.Optimize ⟨⟨[⟨0, 100, []⟩]⟩⟩ (Node.vectorSelector []) ⟨10, 20⟩ =
      (Node.remoteExecution ⟨0, 100, []⟩ (Node.vectorSelector []).clone 10 20, []) ∧
    (Node.vectorSelector []).clone = Node.vectorSelector [] :=
  (passthrough_at_most_one_backend ⟨⟨[⟨0, 100, []⟩]⟩⟩ (Node.vectorSelector []) ⟨10, 20⟩).2.2
    ⟨0, 100, []⟩ rfl (by decide)

/-- C2: with two or more backends, the bottom-up traversal appends, for
every vector-selector node in turn, every engine whose label sets match
the selector (no deduplication, no cross-selector intersection); the
optimizer delegates the cloned plan iff the candidate list is a
singleton whose engine's time coverage intersects the query range, and
returns the input plan unchanged in every other case. -/
theorem passthrough_multiple_backends (m : PassthroughOptimizer) (plan : Node)
    (opts : QOptions) (hl : 2 ≤ m.Endpoints.Engines.length) :
    (matchingLabelsEngines m.Endpoints.Engines plan =
        selectorCandidates m.Endpoints.Engines plan.selectorMatchers) ∧
    (∀ e, matchingLabelsEngines m.Endpoints.Engines plan = [e] →
        matchingEngineTime e opts = true →
        m.Optimize plan opts =
          (Node.remoteExecution e plan.clone opts.startMs opts.endMs, [])) ∧
    ((¬ ∃ e, matchingLabelsEngines m.Endpoints.Engines plan = [e] ∧
        matchingEngineTime e opts = true) →
      m.Optimize plan opts = (plan, [])) := by
  rcases hE : m.Endpoints.Engines with _ | ⟨e1, _ | ⟨e2, rest⟩⟩
  · rw [hE] at hl; simp at hl
  · rw [hE] at hl; simp at hl
  refine ⟨matchingLabelsEngines_eq _ _, fun e hml ht => ?_, fun hno => ?_⟩
  · simp [PassthroughOptimizer.Optimize, hE, hml, ht]
  · rcases hml : matchingLabelsEngines (e1 :: e2 :: rest) plan with _ | ⟨a, _ | ⟨b, t2⟩⟩
    · simp [PassthroughOptimizer.Optimize, hE, hml]
    · have hta : matchingEngineTime a opts = false := by
        rcases hb : matchingEngineTime a opts with _ | _
        · rfl
        · exact absurd ⟨a, hml, hb⟩ hno
      simp [PassthroughOptimizer.Optimize, hE, hml, hta]
    · simp [PassthroughOptimizer.Optimize, hE, hml]

theorem passthrough_multiple_backends_witness :
    PassthroughOptimizer.Optimize
        ⟨⟨[⟨0, 100, [[("job", "web")]]⟩, ⟨0, 100, [[("job", "db")]]⟩]⟩⟩
        (Node.vectorSelector [Matcher.equal "job" "web"]) ⟨10, 20⟩ =
      (Node.remoteExecution ⟨0, 100, [[("job", "web")]]⟩
          (Node.vectorSelector [Matcher.equal "job" "web"]).clone 10 20, []) :=
  (passthrough_multiple_backends
      ⟨⟨[⟨0, 100, [[("job", "web")]]⟩, ⟨0, 100, [[("job", "db")]]⟩]⟩⟩
      (Node.vectorSelector [Matcher.equal "job" "web"]) ⟨10, 20⟩ (by decide)).2.1
    ⟨0, 100, [[("job", "web")]]⟩ (by decide) (by decide)

/-- C3: `labelSetsMatch` is true for every matcher list on an empty
label-set list; on a non-empty list it is true iff some label set fails
no matcher, where a matcher fails a set only when the set has the
matcher's label name and the predicate rejects the stored value; on the
spec's concrete inputs it is false against [{job=db}] and true against
[{job=db},{job=web}]. -/
theorem labelSetsMatch_spec :
    (∀ ms : List Matcher, labelSetsMatch ms [] = true) ∧
    (∀ (ms : List Matcher) (lset : List Labels), lset ≠ [] →
      (labelSetsMatch ms lset = true ↔
        ∃ ls ∈ lset, ∀ m ∈ ms,
          Labels.has ls m.name = true → m.Matches (Labels.get ls m.name) = true)) ∧
    labelSetsMatch [Matcher.equal "job" "web"] [[("job", "db")]] = false ∧
    labelSetsMatch [Matcher.equal "job" "web"] [[("job", "db")], [("job", "web")]] = true := by
  refine ⟨fun ms => rfl, fun ms lset hne => ?_, by decide, by decide⟩
  rcases lset with _ | ⟨ls0, rest⟩
  · exact absurd rfl hne
  · simp [labelSetsMatch, List.any_eq_true, Bool.not_eq_true, List.any_eq_false,
      Bool.and_eq_true, Bool.not_eq_true]

theorem labelSetsMatch_spec_witness :
    labelSetsMatch [Matcher.equal "job" "web"] [[("job", "web")]] = true ↔
      ∃ ls ∈ [[("job", "web")]], ∀ m ∈ [Matcher.equal "job" "web"],
        Labels.has ls m.name = true → m.Matches (Labels.get ls m.name) = true :=
  labelSetsMatch_spec.2.1 [Matcher.equal "job" "web"] [[("job", "web")]] (by decide)

theorem insertBucket_length (b : le) (l : List le) :
    (insertBucket b l).length = l.length + 1 := by
  induction l with
  | nil => rfl
  | cons c t ih => simp only [insertBucket]; split_ifs <;> simp [ih]

theorem sortBuckets_length (l : List le) : (sortBuckets l).length = l.length := by
  induction l with
  | nil => rfl
  | cons b t ih =>
      simp only [sortBuckets, List.foldr_cons] at ih ⊢
      rw [insertBucket_length, ih]
      simp

theorem coalesceGo_length (last : le) (l : List le) :
    (coalesceGo last l).length ≤ l.length + 1 := by
  induction l generalizing last with
  | nil => simp [coalesceGo]
  | cons b t ih =>
      simp only [coalesceGo]
      split_ifs
      · exact le_trans (ih _) (by simp)
      · simpa using ih b

theorem coalesceBuckets_length (l : List le) :
    (coalesceBuckets l).length ≤ l.length := by
  cases l with
  | nil => simp [coalesceBuckets]
  | cons b t => simpa using coalesceGo_length b t

theorem ensureMonoGo_length (tol prev : F) (l : List le) :
    (ensureMonoGo tol prev l).1.length = l.length := by
  induction l generalizing prev with
  | nil => rfl
  | cons b t ih =>
      simp only [ensureMonoGo]
      split_ifs <;> simp [ih]

theorem ensureMonotonic_length (bs : List le) (tol : F) :
    (ensureMonotonicAndIgnoreSmallDeltas bs tol).1.length = bs.length := by
  cases bs with
  | nil => rfl
  | cons b t =>
      simp only [ensureMonotonicAndIgnoreSmallDeltas]
      simp [ensureMonoGo_length]

theorem ensureMonoGo_chain (l : List le) (prev : F) (hp : prev.isFin = true)
    (hl : ∀ b ∈ l, b.count.isFin = true) :
    monoLe (prev :: ((ensureMonoGo smallDeltaTolerance prev l).1.map le.count)) = true := by
  induction l generalizing prev with
  | nil => simp [monoLe]
  | cons b t ih =>
      obtain ⟨pq, hpq⟩ : ∃ x, prev = F.fin x := by
        cases prev <;> simp_all [F.isFin]
      obtain ⟨bq, hbq⟩ : ∃ x, b.count = F.fin x := by
        have := hl b (by simp)
        cases hc : b.count <;> simp_all [F.isFin]
      have hrest : ∀ x ∈ t, x.count.isFin = true := fun x hx => hl x (by simp [hx])
      simp only [ensureMonoGo]
      split_ifs with h1 h2 h3
      · have hbc : b.count = prev := by
          rw [hpq, hbq] at h1 ⊢
          simp [F.beq] at h1
          simp [h1]
        have hmono := ih prev hp hrest
        simp only [List.map_cons, monoLe, hbc]
        rw [hpq] at hmono ⊢
        simp [F.le, F.lt, F.beq, hmono]
      · have hmono := ih prev hp hrest
        simp only [List.map_cons, monoLe]
        rw [hpq] at hmono ⊢
        simp [F.le, F.lt, F.beq, hmono]
      · have hmono := ih prev hp hrest
        simp only [List.map_cons, monoLe]
        rw [hpq] at hmono ⊢
        simp [F.le, F.lt, F.beq, hmono]
      · have hlt : F.le prev b.count = true := by
          rw [hpq, hbq] at h3 ⊢
          simp only [F.lt, decide_eq_true_eq] at h3
          have hle : pq ≤ bq := not_lt.mp (by simpa using h3)
          simp only [F.le, F.lt, F.beq]
          rcases lt_or_eq_of_le hle with h | h
          · simp [h]
          · simp [h]
        have hbfin : (b.count).isFin = true := by rw [hbq]; rfl
        have hmono := ih b.count hbfin hrest
        simp only [List.map_cons, monoLe]
        simp [hlt, hmono]

/-- C6: the repair scan leaves a successor equal to its predecessor
alone; a successor differing from the carried predecessor count by less
than the relative tolerance (1e-12) is clamped to it with the
precision-fixed flag set; a successor lower beyond tolerance is clamped
to it with the forced-monotonic flag set; afterwards the counts are
non-decreasing (for finite counts), and on {1:5, 2:3, +Inf:10} the
counts become {1:5, 2:5, +Inf:10} with only the forced flag set. -/
theorem ensureMonotonic_spec :
    (∀ (prev : F) (b : le) (rest : List le),
      F.beq b.count prev = false → almostEqual prev b.count smallDeltaTolerance = true →
      ensureMonoGo smallDeltaTolerance prev (b :: rest) =
        (⟨b.upperBound, prev⟩ :: (ensureMonoGo smallDeltaTolerance prev rest).1,
         (ensureMonoGo smallDeltaTolerance prev rest).2.1, true)) ∧
    (∀ (prev : F) (b : le) (rest : List le),
      F.beq b.count prev = false → almostEqual prev b.count smallDeltaTolerance = false →
      F.lt b.count prev = true →
      ensureMonoGo smallDeltaTolerance prev (b :: rest) =
        (⟨b.upperBound, prev⟩ :: (ensureMonoGo smallDeltaTolerance prev rest).1, true,
         (ensureMonoGo smallDeltaTolerance prev rest).2.2)) ∧
    (∀ bs : List le, (∀ b ∈ bs, b.count.isFin = true) →
      monoLe (((ensureMonotonicAndIgnoreSmallDeltas bs smallDeltaTolerance).1).map le.count)
        = true) ∧
    ensureMonotonicAndIgnoreSmallDeltas
        [⟨F.fin 1, F.fin 5⟩, ⟨F.fin 2, F.fin 3⟩, ⟨F.inf true, F.fin 10⟩] smallDeltaTolerance =
      ([⟨F.fin 1, F.fin 5⟩, ⟨F.fin 2, F.fin 5⟩, ⟨F.inf true, F.fin 10⟩], true, false) := by
  refine ⟨fun prev b rest h1 h2 => ?_, fun prev b rest h1 h2 h3 => ?_,
    fun bs hfin => ?_, by decide⟩
  · simp [ensureMonoGo, h1, h2]
  · simp [ensureMonoGo, h1, h2, h3]
  · cases bs with
    | nil => rfl
    | cons b0 rest =>
        simp only [ensureMonotonicAndIgnoreSmallDeltas]
        have h0 : (b0.count).isFin = true := hfin b0 (by simp)
        have hch := ensureMonoGo_chain rest b0.count h0 (fun x hx => hfin x (by simp [hx]))
        simpa [monoLe] using hch

theorem ensureMonotonic_spec_witness :
    monoLe (((ensureMonotonicAndIgnoreSmallDeltas
        [⟨F.fin 1, F.fin 5⟩, ⟨F.fin 2, F.fin 3⟩, ⟨F.inf true, F.fin 10⟩]
        smallDeltaTolerance).1).map le.count) = true :=
  ensureMonotonic_spec.2.2.1
    [⟨F.fin 1, F.fin 5⟩, ⟨F.fin 2, F.fin 3⟩, ⟨F.inf true, F.fin 10⟩] (by decide)

/-- C7: on any non-empty bucket set an out-of-domain quantile yields a
sentinel and no error: NaN yields NaN, q < 0 yields -Inf, q > 1 yields
+Inf. -/
theorem bucketQuantile_out_of_domain (bs : List le) (hne : bs ≠ []) :
    bucketQuantile F.nan bs = some (F.nan, false, false) ∧
    (∀ q, F.lt q (F.fin 0) = true →
      bucketQuantile q bs = some (F.inf false, false, false)) ∧
    (∀ q, F.lt (F.fin 1) q = true →
      bucketQuantile q bs = some (F.inf true, false, false)) := by
  refine ⟨rfl, fun q hq => ?_, fun q hq => ?_⟩
  · have hn : q.isNaN = false := by cases q <;> simp_all [F.lt, F.isNaN]
    simp [bucketQuantile, bucketQuantileState, hn, hq]
  · have hn : q.isNaN = false := by cases q <;> simp_all [F.lt, F.isNaN]
    have hq0 : F.lt q (F.fin 0) = false := by
      cases q with
      | nan => simp [F.lt]
      | inf s => cases s <;> simp_all [F.lt]
      | fin a =>
          simp only [F.lt, decide_eq_true_eq] at hq ⊢
          simp only [decide_eq_false_iff_not]
          intro hc
          linarith
    simp [bucketQuantile, bucketQuantileState, hn, hq0, hq]

theorem bucketQuantile_out_of_domain_witness :
    bucketQuantile F.nan [⟨F.fin 1, F.fin 1⟩] = some (F.nan, false, false) ∧
    bucketQuantile (F.fin (-1)) [⟨F.fin 1, F.fin 1⟩] = some (F.inf false, false, false) ∧
    bucketQuantile (F.fin 2) [⟨F.fin 1, F.fin 1⟩] = some (F.inf true, false, false) := by
  obtain ⟨h1, h2, h3⟩ := bucketQuantile_out_of_domain [⟨F.fin 1, F.fin 1⟩] (by decide)
  exact ⟨h1, h2 (F.fin (-1)) (by decide), h3 (F.fin 2) (by decide)⟩

/-- C4 counterexample: on buckets {1:1, 2:2, +Inf:3} with q = 0.5 the
code returns 1.5 — rank 1.5 lands in the bucket with bound 2 and the
documented interpolation formula yields 1 + (2-1)*(1.5-1)/(2-1) = 1.5,
not the value 2 the claim asserts. -/
theorem bucketQuantile_example_not_two :
    bucketQuantile (F.fin (mkRat 1 2))
        [⟨F.fin 1, F.fin 1⟩, ⟨F.fin 2, F.fin 2⟩, ⟨F.inf true, F.fin 3⟩]
      = some (F.fin (mkRat 3 2), false, false) ∧ F.fin (mkRat 3 2) ≠ F.fin 2 := by
  constructor
  · decide
  · decide

/-- C4 amended: rank = 0.5 * 3 = 1.5, the binary search selects index 1
(the bucket with bound 2), and the interpolated result is 1.5. -/
theorem bucketQuantile_example_value :
    F.mul (F.fin (mkRat 1 2)) (F.fin 3) = F.fin (mkRat 3 2) ∧
    sortSearch 2 (fun i => F.le (F.fin (mkRat 3 2))
        (([⟨F.fin 1, F.fin 1⟩, ⟨F.fin 2, F.fin 2⟩,
           ⟨F.inf true, F.fin 3⟩].getD i defaultBucket).count)) = 1 ∧
    bucketQuantile (F.fin (mkRat 1 2))
        [⟨F.fin 1, F.fin 1⟩, ⟨F.fin 2, F.fin 2⟩, ⟨F.inf true, F.fin 3⟩]
      = some (F.fin (mkRat 3 2), false, false) := by
  refine ⟨by decide, by decide, by decide⟩

/-- C5 counterexample: with the top bucket's bound not +Inf but q = -1,
the code returns -Inf (the out-of-domain checks run first), not NaN as
the claim's "NaN regardless of q" requires. -/
theorem bucketQuantile_degenerate_counterexample :
    bucketQuantile (F.fin (-1)) [⟨F.fin 1, F.fin 1⟩, ⟨F.fin 2, F.fin 2⟩]
      = some (F.inf false, false, false) ∧ F.inf false ≠ F.nan := by
  exact ⟨by decide, by decide⟩

/-- C5 amended: for every quantile q that is neither NaN nor out of
[0,1], and a non-empty bucket set, the degenerate cases yield the NaN
sentinel and no error: top (sorted-last) bound not +Inf, fewer than two
buckets after coalescing (repair preserves the count), or a zero top
count after repair. -/
theorem bucketQuantile_degenerate_nan (q : F) (bs : List le) (hne : bs ≠ [])
    (hq1 : q.isNaN = false) (hq2 : F.lt q (F.fin 0) = false)
    (hq3 : F.lt (F.fin 1) q = false) :
    (((sortBuckets bs).getLastD defaultBucket).upperBound.isPosInf = false →
      bucketQuantile q bs = some (F.nan, false, false)) ∧
    ((coalesceBuckets (sortBuckets bs)).length < 2 →
      bucketQuantile q bs = some (F.nan, false, false)) ∧
    (F.beq (((ensureMonotonicAndIgnoreSmallDeltas (coalesceBuckets (sortBuckets bs))
        smallDeltaTolerance).1).getLastD defaultBucket).count (F.fin 0) = true →
      bucketQuantile q bs = some (F.nan, false, false)) := by
  have hlen0 : ¬ (sortBuckets bs).length = 0 := by
    rw [sortBuckets_length]
    simpa [List.length_eq_zero] using hne
  refine ⟨fun htop => ?_, fun hlt2 => ?_, fun hobs => ?_⟩
  · rw [List.getLastD_eq_getLast?] at htop
    simp [bucketQuantile, bucketQuantileState, bucketQuantileGo, bucketQuantileValue, hq1, hq2, hq3, hlen0, htop]
  · by_cases htop : ((sortBuckets bs).getLast?.getD defaultBucket).upperBound.isPosInf = true
    · have hrep : (ensureMonotonicAndIgnoreSmallDeltas (coalesceBuckets (sortBuckets bs))
          smallDeltaTolerance).1.length < 2 := by
        rw [ensureMonotonic_length]; exact hlt2
      simp [bucketQuantile, bucketQuantileState, bucketQuantileGo, bucketQuantileValue, hq1, hq2, hq3, hlen0, htop, hrep]
    · simp only [Bool.not_eq_true] at htop
      simp [bucketQuantile, bucketQuantileState, bucketQuantileGo, bucketQuantileValue, hq1, hq2, hq3, hlen0, htop]
  · rw [List.getLastD_eq_getLast?] at hobs
    by_cases htop : ((sortBuckets bs).getLast?.getD defaultBucket).upperBound.isPosInf = true
    · by_cases hrep : (ensureMonotonicAndIgnoreSmallDeltas (coalesceBuckets (sortBuckets bs))
          smallDeltaTolerance).1.length < 2
      · simp [bucketQuantile, bucketQuantileState, bucketQuantileGo, bucketQuantileValue, hq1, hq2, hq3, hlen0, htop, hrep]
      · simp [bucketQuantile, bucketQuantileState, bucketQuantileGo, bucketQuantileValue, hq1, hq2, hq3, hlen0, htop, hrep, hobs]
    · simp only [Bool.not_eq_true] at htop
      simp [bucketQuantile, bucketQuantileState, bucketQuantileGo, bucketQuantileValue, hq1, hq2, hq3, hlen0, htop]

theorem bucketQuantile_degenerate_nan_witness :
    bucketQuantile (F.fin (mkRat 1 2)) [⟨F.inf true, F.fin 5⟩] = some (F.nan, false, false) :=
  (bucketQuantile_degenerate_nan (F.fin (mkRat 1 2)) [⟨F.inf true, F.fin 5⟩]
    (by decide) (by decide) (by decide) (by decide)).2.1 (by decide)

theorem lt_not_nan {a b : F} (h : F.lt a b = true) :
    a.isNaN = false ∧ b.isNaN = false := by
  cases a <;> cases b <;> simp_all [F.lt, F.isNaN]

theorem gt_one_not_lt_zero {q : F} (h : F.lt (F.fin 1) q = true) :
    F.lt q (F.fin 0) = false := by
  cases q with
  | nan => rfl
  | inf s => cases s <;> simp_all [F.lt]
  | fin a =>
      simp only [F.lt, decide_eq_true_eq] at h ⊢
      simp only [decide_eq_false_iff_not]
      intro hc
      linarith

theorem bucketQuantileGo_snd_length (q : F) (sorted : List le) :
    (bucketQuantileGo q sorted).2.length = sorted.length := by
  simp only [bucketQuantileGo]
  split_ifs
  · rfl
  · rfl
  · have h1 : (ensureMonotonicAndIgnoreSmallDeltas (coalesceBuckets sorted)
        smallDeltaTolerance).1.length ≤ sorted.length := by
      rw [ensureMonotonic_length]
      exact coalesceBuckets_length _
    simp only [List.length_append, List.length_drop]
    omega

/-- C9 amended: `bucketQuantile` is deterministic and touches no state
outside its return value and the caller's bucket slice; the slice is
rewritten strictly in place (its length never changes), is untouched on
the out-of-domain early returns, but is in general sorted, compacted by
coalescing and clamped by monotonicity repair, as its doc comment
states. -/
theorem bucketQuantileState_frame (q : F) (bs : List le) :
    ((bucketQuantileState q bs).2.length = bs.length) ∧
    (q.isNaN = true ∨ F.lt q (F.fin 0) = true ∨ F.lt (F.fin 1) q = true →
      (bucketQuantileState q bs).2 = bs) ∧
    (∀ q2 bs2, q = q2 → bs = bs2 →
      bucketQuantileState q bs = bucketQuantileState q2 bs2) := by
  refine ⟨?_, ?_, fun q2 bs2 hq hbs => by rw [hq, hbs]⟩
  · simp only [bucketQuantileState]
    split_ifs
    · rfl
    · rfl
    · rfl
    · rw [bucketQuantileGo_snd_length, sortBuckets_length]
  · rintro (h | h | h)
    · simp [bucketQuantileState, h]
    · have hn := (lt_not_nan h).1
      simp [bucketQuantileState, hn, h]
    · have hn := (lt_not_nan h).2
      have h0 := gt_one_not_lt_zero h
      simp [bucketQuantileState, hn, h0, h]

theorem bucketQuantileState_frame_witness :
    (bucketQuantileState F.nan [⟨F.fin 1, F.fin 1⟩]).2 = [⟨F.fin 1, F.fin 1⟩] :=
  (bucketQuantileState_frame F.nan [⟨F.fin 1, F.fin 1⟩]).2.1 (Or.inl rfl)

/-- C9 counterexample: on buckets {1:5, 2:3, +Inf:10} with q = 0.5 the
caller's slice is not left unchanged — monotonicity repair clamps the
count at bound 2 from 3 up to 5 in place. -/
theorem bucketQuantileState_mutates :
    (bucketQuantileState (F.fin (mkRat 1 2))
        [⟨F.fin 1, F.fin 5⟩, ⟨F.fin 2, F.fin 3⟩, ⟨F.inf true, F.fin 10⟩]).2
      ≠ [⟨F.fin 1, F.fin 5⟩, ⟨F.fin 2, F.fin 3⟩, ⟨F.inf true, F.fin 10⟩] ∧
    (bucketQuantileState (F.fin (mkRat 1 2))
        [⟨F.fin 1, F.fin 5⟩, ⟨F.fin 2, F.fin 3⟩, ⟨F.inf true, F.fin 10⟩]).2
      = [⟨F.fin 1, F.fin 5⟩, ⟨F.fin 2, F.fin 5⟩, ⟨F.inf true, F.fin 10⟩] := by
  exact ⟨by decide, by decide⟩

theorem execLoop_ok_front (pre : List (List StepVector)) (sm sm2 : List (Option PSeries))
    (rest : List (Except String (List StepVector)))
    (h : accumBatchList sm pre = some sm2) :
    execLoop (pre.map Except.ok ++ rest) sm = execLoop rest sm2 := by
  induction pre generalizing sm with
  | nil =>
      simp only [accumBatchList, Option.some.injEq] at h
      rw [h]
      rfl
  | cons r t ih =>
      simp only [accumBatchList] at h
      cases hb : accumBatch sm r with
      | none => rw [hb] at h; exact absurd h (by simp)
      | some m =>
          rw [hb] at h
          simp only [List.map_cons, List.cons_append, execLoop, hb]
          exact ih m h

/-- C8: an error from any `Next` call short-circuits `Exec` into a
result whose `Err` is exactly that error and whose value matrix is
empty (no partial points); an error-free run yields no error and the
accumulated, sorted matrix. -/
theorem rangeQueryExec_error_atomic :
    (∀ (pre : List (List StepVector)) (e : String)
        (rest : List (Except String (List StepVector))) (sm : List (Option PSeries)),
      accumBatchList (List.replicate 3000 none) pre = some sm →
      rangeQueryExec (pre.map Except.ok ++ Except.error e :: rest) = some (newErrResult e) ∧
      newErrResult e = ⟨[], some e⟩) ∧
    (∀ (pre : List (List StepVector)) (sm : List (Option PSeries)),
      accumBatchList (List.replicate 3000 none) pre = some sm →
      rangeQueryExec (pre.map Except.ok) = some ⟨sortMatrix (materialize sm), none⟩) := by
  constructor
  · intro pre e rest sm h
    refine ⟨?_, rfl⟩
    unfold rangeQueryExec
    rw [execLoop_ok_front pre _ sm _ h]
    rfl
  · intro pre sm h
    unfold rangeQueryExec
    have h2 := execLoop_ok_front pre (List.replicate 3000 none) sm [] h
    rw [List.append_nil] at h2
    rw [h2]
    rfl

theorem rangeQueryExec_error_atomic_witness :
    rangeQueryExec [Except.error "boom"] = some (newErrResult "boom") ∧
    newErrResult "boom" = ⟨[], some "boom"⟩ :=
  rangeQueryExec_error_atomic.1 [] "boom" [] (List.replicate 3000 none) rfl

theorem accumSample_some (sm : List (Option PSeries)) (t : Int) (s : Sample)
    (h : s.ID < sm.length) :
    accumSample sm t s ≠ none ∧
    ∀ sm2, accumSample sm t s = some sm2 → sm2.length = sm.length := by
  constructor
  · simp [accumSample, h]
  · intro sm2 h2
    simp only [accumSample, h, if_pos] at h2
    rw [← Option.some.injEq] at h2
    simp only [Option.some.injEq] at h2
    rw [← h2, List.length_set]

theorem accumSamples_some (ss : List Sample) (sm : List (Option PSeries)) (t : Int)
    (h : ∀ s ∈ ss, s.ID < sm.length) :
    ∃ sm2, accumSamples sm t ss = some sm2 ∧ sm2.length = sm.length := by
  induction ss generalizing sm with
  | nil => exact ⟨sm, rfl, rfl⟩
  | cons s rest ih =>
      have hs := h s (by simp)
      obtain ⟨hne, hlen⟩ := accumSample_some sm t s hs
      cases hsm : accumSample sm t s with
      | none => exact absurd hsm hne
      | some m =>
          have hm := hlen m hsm
          obtain ⟨sm2, h1, h2⟩ := ih m (fun x hx => hm ▸ h x (by simp [hx]))
          refine ⟨sm2, ?_, by rw [h2, hm]⟩
          simp only [accumSamples, hsm]
          exact h1

theorem accumBatch_some (r : List StepVector) (sm : List (Option PSeries))
    (h : ∀ v ∈ r, ∀ s ∈ v.Samples, s.ID < sm.length) :
    ∃ m, accumBatch sm r = some m ∧ m.length = sm.length := by
  induction r generalizing sm with
  | nil => exact ⟨sm, rfl, rfl⟩
  | cons v t ih =>
      obtain ⟨m, h1, h2⟩ := accumSamples_some v.Samples sm v.T (h v (by simp))
      obtain ⟨m2, h3, h4⟩ := ih m (fun v2 hv2 s hs => h2 ▸ h v2 (by simp [hv2]) s hs)
      refine ⟨m2, ?_, by rw [h4, h2]⟩
      simp only [accumBatch, accumVector, h1]
      exact h3

theorem execLoop_ok_ne_none (pre : List (List StepVector)) (sm : List (Option PSeries))
    (h : ∀ r ∈ pre, ∀ v ∈ r, ∀ s ∈ v.Samples, s.ID < sm.length) :
    execLoop (pre.map Except.ok) sm ≠ none := by
  induction pre generalizing sm with
  | nil => simp [execLoop]
  | cons r t ih =>
      obtain ⟨m, h1, h2⟩ := accumBatch_some r sm (h r (by simp))
      simp only [List.map_cons, execLoop, h1]
      exact ih m (fun r2 hr2 v hv s hs => h2 ▸ h r2 (by simp [hr2]) v hv s hs)

/-- C10: the accumulator is a fixed slice of length 3000 indexed
directly by series id; runs whose ids all stay below 3000 never hit the
bound (no panic), and a step vector carrying a sample with id 3000
makes the slice access go out of range. -/
theorem rangeQueryExec_series_id_bounds :
    (∀ pre : List (List StepVector),
      (∀ r ∈ pre, ∀ v ∈ r, ∀ s ∈ v.Samples, s.ID < 3000) →
      rangeQueryExec (pre.map Except.ok) ≠ none) ∧
    rangeQueryExec [Except.ok [⟨0, [⟨3000, [], F.fin 0⟩]⟩]] = none ∧
    (List.replicate 3000 (none : Option PSeries)).length = 3000 := by
  refine ⟨fun pre h => ?_, ?_, List.length_replicate 3000 none⟩
  · apply execLoop_ok_ne_none
    intro r hr v hv s hs
    rw [List.length_replicate]
    exact h r hr v hv s hs
  · have h1 : accumSample (List.replicate 3000 none) 0 ⟨3000, [], F.fin 0⟩ = none := by
      unfold accumSample
      rw [List.length_replicate]
      exact if_neg (Nat.lt_irrefl 3000)
    have h2 : accumBatch (List.replicate 3000 none) [⟨0, [⟨3000, [], F.fin 0⟩]⟩] = none := by
      unfold accumBatch accumVector accumSamples
      rw [h1]
    show execLoop [Except.ok [⟨0, [⟨3000, [], F.fin 0⟩]⟩]] (List.replicate 3000 none) = none
    unfold execLoop
    rw [h2]

theorem rangeQueryExec_series_id_bounds_witness :
    rangeQueryExec [Except.ok [⟨0, [⟨5, [("a", "b")], F.fin 1⟩]⟩]] ≠ none :=
  rangeQueryExec_series_id_bounds.1 [[⟨0, [⟨5, [("a", "b")], F.fin 1⟩]⟩]] (by decide)
